import Mathlib

/-!
Verification of the OpenFermion-Cirq repository specification.

Part 1 embeds `openfermioncirq/variational/ansatz.py` (present in the source
tree).  Part 2 models the Bogoliubov-transform circuit synthesizer
(`bogoliubov_transform`); its implementation file is not in the source tree
(only its test file `primitives/bogoliubov_transform_test.py` is), so the
synthesizer is modelled from the specification, as noted in the doc comment of
each modelled definition.
-/

namespace OFC

open Matrix

/-! ## Part 1: `VariationalAnsatz` (variational/ansatz.py) -/

/-- A `cirq.Symbol`: a named object usable in a circuit whose numerical value
is determined at run time. -/
structure Symbol where
  name : String
deriving DecidableEq

/-- Insertion of a single key/value pair with Python `dict` semantics: if the
key is already present its value is overwritten in place, otherwise the pair
is appended at the end. -/
def pyDictInsert {α β : Type} [DecidableEq α] (d : List (α × β)) (k : α) (v : β) :
    List (α × β) :=
  if d.any (fun p => decide (p.1 = k)) then
    d.map (fun p => if p.1 = k then (k, v) else p)
  else d ++ [(k, v)]

/-- Python `dict(pairs)` / dict-comprehension semantics: keys appear in
first-occurrence order and a later pair with a duplicate key overwrites the
earlier value. -/
def pyDict {α β : Type} [DecidableEq α] (l : List (α × β)) : List (α × β) :=
  l.foldl (fun d p => pyDictInsert d p.1 p.2) []

/-- The data a `VariationalAnsatz` subclass supplies: the abstract methods
`param_names` and `generate_circuit` (the latter reads `self.params`, so it is
modelled as a function of the params dictionary). -/
structure AnsatzSubclass (Circuit : Type) where
  param_names : List String
  generate_circuit : List (String × Symbol) → Circuit

/-- The params dictionary built by `VariationalAnsatz.__init__`:
`{param_name: cirq.Symbol(param_name) for param_name in self.param_names()}`. -/
def ansatzParams (names : List String) : List (String × Symbol) :=
  pyDict (names.map (fun p => (p, Symbol.mk p)))

/-- A constructed `VariationalAnsatz` object: the subclass data together with
the attributes `params` and `circuit` set by `__init__`. -/
structure VariationalAnsatz (Circuit : Type) where
  sub : AnsatzSubclass Circuit
  params : List (String × Symbol)
  circuit : Circuit

/-- Model of `VariationalAnsatz.__init__`: populate the `params` dictionary from the
output of `param_names`, then generate the ansatz circuit (which reads the
already-populated `params`). -/
def VariationalAnsatz.init {Circuit : Type} (sub : AnsatzSubclass Circuit) :
    VariationalAnsatz Circuit :=
  ⟨sub, ansatzParams sub.param_names,
    sub.generate_circuit (ansatzParams sub.param_names)⟩

/-- Model of `VariationalAnsatz.param_resolver`:
`cirq.ParamResolver(dict(zip(self.param_names(), param_values)))`. -/
def VariationalAnsatz.param_resolver {Circuit : Type} (a : VariationalAnsatz Circuit)
    (param_values : List ℝ) : List (String × ℝ) :=
  pyDict (a.sub.param_names.zip param_values)

/-- Model of `VariationalAnsatz.default_initial_params`: `numpy.zeros(len(self.params))`. -/
def VariationalAnsatz.default_initial_params {Circuit : Type}
    (a : VariationalAnsatz Circuit) : List ℝ :=
  List.replicate a.params.length 0

/-! ## Part 2: the Bogoliubov-transform circuit synthesizer

The implementation module of `bogoliubov_transform` is not part of the source
tree; only its test file `primitives/bogoliubov_transform_test.py` is.  The
synthesizer is therefore modelled from the specification.  The spec prescribes
only the net unitary effect of the emitted gate sequence (§6: "this spec does
not prescribe a specific gate decomposition, only the required net unitary
effect of each elementary rotation") and leaves the elementary-rotation
decomposition free (§9, open question).  Accordingly a synthesized circuit is
modelled by the transformation it implements — an n×n single-particle matrix
in the particle-number-conserving case, or the pair of n×n blocks of an n×2n
Bogoliubov matrix in the general case — and circuit-level operations
(inversion, sequential composition, state-vector simulation) are modelled by
their action on that denotation, each faithful to the behaviour the spec
assigns them. -/

/-- A numpy complex matrix as passed to `bogoliubov_transform`: a shape
together with an entry function. -/
structure NPMatrix where
  rows : ℕ
  cols : ℕ
  entry : ℕ → ℕ → ℂ

/-- Modelled from the spec: a synthesized Bogoliubov-transform circuit,
represented by the transformation its gate sequence implements (spec §4.1:
general mode "maps the vacuum-referenced mode operators to the new operators
defined by the rows of `transformation_matrix`").  `numberConserving u` is the
circuit for an n×n matrix; `general A B` the circuit for an n×2n matrix with
left block `A` and right block `B`. -/
inductive BogoliubovCircuit (n : ℕ) where
  | numberConserving (u : Matrix (Fin n) (Fin n) ℂ)
  | general (left right : Matrix (Fin n) (Fin n) ℂ)

/-- Modelled from the spec: `bogoliubov_transform(qubits, transformation_matrix,
initial_state)` with `n = len(qubits)`.  The shape of the matrix is validated
eagerly — spec §7 requires the ShapeError to surface no later than the first
attempt to obtain an element of the gate sequence, and §9 notes that eager
validation (or eager production of the whole sequence) satisfies this — and a
matrix of shape (n, n) or (n, 2n) yields the circuit for that transformation.
The optional initial state permits, but does not require, emitting a shorter
specialized circuit (spec §4.1(2): rotations "may be omitted"); the modelled
synthesizer emits the general circuit, which is one of the behaviours the spec
allows, since the only requirement on the specialized circuit is agreement
with the general one on the stated initial state. -/
def bogoliubov_transform (n : ℕ) (m : NPMatrix) (initial_state : Option ℕ) :
    Except String (BogoliubovCircuit n) :=
  if m.rows = n ∧ m.cols = n then
    Except.ok (BogoliubovCircuit.numberConserving (fun i j => m.entry i.val j.val))
  else if m.rows = n ∧ m.cols = 2 * n then
    Except.ok (BogoliubovCircuit.general (fun i j => m.entry i.val j.val)
      (fun i j => m.entry i.val (n + j.val)))
  else
    Except.error "transformation_matrix must have shape (n, n) or (n, 2n)"

/-- The 2n×2n matrix `[[A, B], [conj B, conj A]]` attached to an n×2n
Bogoliubov matrix with blocks `A`, `B`; the transform satisfies the canonical
anticommutation constraints (spec §3 invariant) exactly when this matrix is
unitary. -/
noncomputable def extendedMatrix {n : ℕ} (A B : Matrix (Fin n) (Fin n) ℂ) :
    Matrix (Fin n ⊕ Fin n) (Fin n ⊕ Fin n) ℂ :=
  Matrix.fromBlocks A B (B.map (starRingEnd ℂ)) (A.map (starRingEnd ℂ))

/-- Validity of a transformation (spec §3): a number-conserving transform is an
n×n unitary; a general Bogoliubov transform has a unitary extended matrix. -/
def BogoliubovCircuit.valid {n : ℕ} : BogoliubovCircuit n → Prop
  | .numberConserving u => u ∈ Matrix.unitaryGroup (Fin n) ℂ
  | .general A B => extendedMatrix A B ∈ Matrix.unitaryGroup (Fin n ⊕ Fin n) ℂ

/-- Modelled from the spec: `cirq.inverse` of a synthesized circuit — the
gate-by-gate inverse (reversed order, each elementary rotation inverted).
Each emitted gate is unitary, so the reversed-and-inverted gate sequence
implements the inverse of the transformation the circuit implements: the
inverse matrix in the n×n case, and in the n×2n case the transform whose
blocks are the blocks of the inverse of the extended matrix. -/
noncomputable def BogoliubovCircuit.inverse {n : ℕ} :
    BogoliubovCircuit n → BogoliubovCircuit n
  | .numberConserving u => .numberConserving u⁻¹
  | .general A B =>
      .general (extendedMatrix A B)⁻¹.toBlocks₁₁ (extendedMatrix A B)⁻¹.toBlocks₁₂

/-- The test file's adjoint rule (bogoliubov_transform_test.py, lines 163–169):
the conjugate transpose when the matrix is square of size n; otherwise
`numpy.block([left_block.T.conj(), right_block.T])` for the blocks
`left = m[:, :n]`, `right = m[:, n:]`. -/
noncomputable def NPMatrix.daggered (m : NPMatrix) (n : ℕ) : NPMatrix :=
  if m.rows = n ∧ m.cols = n then
    ⟨n, n, fun i j => starRingEnd ℂ (m.entry j i)⟩
  else
    ⟨n, 2 * n, fun i j =>
      if j < n then starRingEnd ℂ (m.entry j i) else m.entry (j - n) (n + i)⟩

/-- numpy `u.dot(v)`: the matrix product of two numpy matrices. -/
noncomputable def NPMatrix.matmul (a b : NPMatrix) : NPMatrix :=
  ⟨a.rows, b.cols, fun i j => ∑ k in Finset.range a.cols, a.entry i k * b.entry k j⟩

/-- Modelled from the spec: emitting the gate sequence of one synthesized
circuit and then the gate sequence of another on the same qubits
(`cirq.Circuit.from_ops(bogoliubov_transform(qubits, u),
bogoliubov_transform(qubits, v))`).  For number-conserving circuits the
sequential composition implements the product of the two transforms in that
order (spec §4.1: "composing two transforms' circuits sequentially must equal,
up to global phase, the circuit for the matrix product"); the composite of
circuits involving a general Bogoliubov transform is not a required behaviour
("only meaningful when both are n×n") and is left undefined. -/
noncomputable def BogoliubovCircuit.compose {n : ℕ} :
    BogoliubovCircuit n → BogoliubovCircuit n → Option (BogoliubovCircuit n)
  | .numberConserving u, .numberConserving v => some (.numberConserving (u * v))
  | _, _ => none

/-- The net single-particle action of a synthesized circuit as a 2n×2n
extended matrix; a number-conserving transform `u` acts as
`[[u, 0], [0, conj u]]`.  Two synthesized circuits with the same extended
matrix implement the same transformation, hence equal unitaries up to global
phase. -/
noncomputable def BogoliubovCircuit.extended {n : ℕ} :
    BogoliubovCircuit n → Matrix (Fin n ⊕ Fin n) (Fin n ⊕ Fin n) ℂ
  | .numberConserving u => extendedMatrix u 0
  | .general A B => extendedMatrix A B

/-! ### Computational basis states and the Jordan-Wigner convention

The tests build the initial-state integer of a collection of occupied modes as
`sum(1 << (n_qubits - 1 - i) for i in occupied_orbitals)` (MSB-first: qubit i
carries mode i). -/

/-- The initial-state integer of a list of occupied modes:
`sum(1 << (n - 1 - i) for i in S)`. -/
def basisIndex (n : ℕ) (S : List (Fin n)) : ℕ :=
  (S.map (fun i => 2 ^ (n - 1 - i.val))).sum

/-- The occupied modes of the computational basis state `k` on `n` qubits under
the MSB-first convention (mode `i` occupied iff bit `n - 1 - i` of `k` is set),
in ascending mode order. -/
def occupiedList (n : ℕ) (k : ℕ) : List (Fin n) :=
  (List.finRange n).filter (fun i => k.testBit (n - 1 - i.val))

/-- The basis vector of the computational basis state with index `k` in the
2^n-dimensional state space. -/
def fockBasisVec (n : ℕ) (k : ℕ) : Fin (2 ^ n) → ℂ :=
  fun j => if j.val = k then 1 else 0

/-- The determinant of the square submatrix of `M` with row list `rs` and
column list `cs`, by Laplace expansion along the first row (both lists are
used in the order given; the value is only meaningful when the lists have
equal length). -/
noncomputable def detL {n : ℕ} (M : Matrix (Fin n) (Fin n) ℂ) :
    List (Fin n) → List (Fin n) → ℂ
  | [], _ => 1
  | r :: rs, cs =>
      (cs.enum.map
        (fun p => (-1 : ℂ) ^ p.1 * M r p.2 * detL M rs (cs.eraseIdx p.1))).sum

/-- Modelled from the spec: the state produced by simulating the synthesized
circuit for an n×n transformation matrix `M` from the computational basis
state with occupied modes `S`.  Spec §4.1(1): the circuit maps the mode
operators to the new operators defined by the rows of `M`; on a basis state
with occupied modes `S` this is the fermionic Slater expansion, whose
amplitude on the basis state with (ascending) occupied modes `T`, |T| = |S|,
is the minor `det M[S, T]`, and `0` on states of different particle number. -/
noncomputable def bogoliubovFinalState (n : ℕ) (M : Matrix (Fin n) (Fin n) ℂ)
    (S : List (Fin n)) : Fin (2 ^ n) → ℂ :=
  fun k =>
    if (occupiedList n k.val).length = S.length then detL M S (occupiedList n k.val)
    else 0

/-- Modelled from the spec: state-vector simulation of a synthesized circuit
from the computational basis state with occupied modes `S`.  The
particle-number-conserving case is the Slater expansion above; the state
produced by a general (pairing) Bogoliubov circuit is not observed by any
claim and is not modelled. -/
noncomputable def BogoliubovCircuit.applyBasis {n : ℕ} :
    BogoliubovCircuit n → List (Fin n) → Option (Fin (2 ^ n) → ℂ)
  | .numberConserving u, S => some (bogoliubovFinalState n u S)
  | .general _ _, _ => none

/-- Synthesize the circuit for `m` with the initial state of occupied modes
`S` (as the tests do) and simulate it from that basis state. -/
noncomputable def simulateBog (n : ℕ) (m : NPMatrix) (S : List (Fin n)) :
    Option (Fin (2 ^ n) → ℂ) :=
  match bogoliubov_transform n m (some (basisIndex n S)) with
  | .ok c => c.applyBasis S
  | .error _ => none

/-! ### Quadratic Hamiltonians (modelled from the spec) -/

/-- The eigenvalue attached to a set of occupied orbitals: the sum of their
orbital energies plus the constant term
(`sum(orbital_energies[i] for i in occupied_orbitals) + constant`). -/
noncomputable def orbitalEnergySum (n : ℕ) (ε : Fin n → ℝ) (c : ℝ)
    (S : List (Fin n)) : ℝ :=
  (S.map (fun i => ε i)).sum + c

/-- Modelled from the spec (glossary: a quadratic Hamiltonian is
"diagonalizable by a Bogoliubov transform into independent orbital energy
terms"): the diagonal form of a quadratic Hamiltonian with orbital energies
`ε` and constant `c` — the diagonal Fock-space matrix whose entry at basis
state `k` is the sum of the orbital energies of the modes occupied in `k`
plus `c`. -/
noncomputable def diagQuadHam (n : ℕ) (ε : Fin n → ℝ) (c : ℝ) :
    Matrix (Fin (2 ^ n)) (Fin (2 ^ n)) ℂ :=
  Matrix.diagonal (fun k => (orbitalEnergySum n ε c (occupiedList n k.val) : ℂ))

/-- Modelled from the spec: the sparse operator of a quadratic Hamiltonian,
expressed through the Fock-space unitary `W` implemented by the circuit for
its diagonalizing Bogoliubov transform: `H = W D Wᴴ` with `D` the diagonal
form above (the diagonalizing transform maps `H` to orbital energy terms, so
the circuit unitary conjugates the diagonal form into `H`). -/
noncomputable def quadHamSparse (n : ℕ) (ε : Fin n → ℝ) (c : ℝ)
    (W : Matrix (Fin (2 ^ n)) (Fin (2 ^ n)) ℂ) :
    Matrix (Fin (2 ^ n)) (Fin (2 ^ n)) ℂ :=
  W * diagQuadHam n ε c * Wᴴ

/-! ### The discrete Fourier transformation matrix of the tests -/

/-- The primitive cube root of unity `e^{2πi/3}`. -/
noncomputable def omega3 : ℂ :=
  Complex.exp (((2 * Real.pi / 3 : ℝ)) * Complex.I)

/-- Model of `fourier_transform_matrix(n_modes)` from the test file: entry (j, k) is
`root_of_unity ^ (j * k) / sqrt(n_modes)` with
`root_of_unity = exp(2πi/n_modes)`. -/
noncomputable def fourier_transform_matrix (n : ℕ) : NPMatrix :=
  ⟨n, n, fun j k =>
    Complex.exp (((2 * Real.pi / n : ℝ)) * Complex.I) ^ (j * k)
      / (Real.sqrt n : ℝ)⟩

/-- The first literal test vector: `[0, 1, 1, 0, 1, 0, 0, 0] / sqrt(3)`
(entry at basis index `k`). -/
noncomputable def fourierTarget1 : Fin (2 ^ 3) → ℂ :=
  fun k =>
    (match k.val with
     | 1 => 1
     | 2 => 1
     | 4 => 1
     | _ => 0)
    / ((Real.sqrt 3 : ℝ) : ℂ)

/-- The second literal test vector:
`[0, 0, 0, ω−1, 0, 1−ω, ω−1, 0] / 3` with `ω = e^{2πi/3}`
(entry at basis index `k`). -/
noncomputable def fourierTarget2 : Fin (2 ^ 3) → ℂ :=
  fun k =>
    (match k.val with
     | 3 => omega3 - 1
     | 5 => 1 - omega3
     | 6 => omega3 - 1
     | _ => 0)
    / 3

/-! ### Dictionary lemmas -/

theorem pyDictInsert_mem {α β : Type} [DecidableEq α] {d : List (α × β)} {k : α}
    {v : β} {p : α × β} (h : p ∈ pyDictInsert d k v) : p ∈ d ∨ p = (k, v) := by
  unfold pyDictInsert at h
  split at h
  · rcases List.mem_map.mp h with ⟨q, hq, hqp⟩
    by_cases hk : q.1 = k
    · right; simp only [if_pos hk] at hqp; exact hqp.symm
    · left; simp only [if_neg hk] at hqp; exact hqp ▸ hq
  · rcases List.mem_append.mp h with h' | h'
    · exact Or.inl h'
    · right; simpa using h'

theorem pyDictInsert_of_not_mem {α β : Type} [DecidableEq α] {d : List (α × β)}
    {k : α} (v : β) (h : ∀ p ∈ d, p.1 ≠ k) :
    pyDictInsert d k v = d ++ [(k, v)] := by
  have hc : ¬ (d.any (fun p => decide (p.1 = k)) = true) := by
    intro hc
    rcases List.any_eq_true.mp hc with ⟨p, hp, hk⟩
    exact h p hp (of_decide_eq_true hk)
  unfold pyDictInsert
  rw [if_neg hc]

theorem pyDict_fold_mem {α β : Type} [DecidableEq α] :
    ∀ (l d : List (α × β)) (p : α × β),
      p ∈ l.foldl (fun d q => pyDictInsert d q.1 q.2) d → p ∈ d ∨ p ∈ l := by
  intro l
  induction l with
  | nil => intro d p h; exact Or.inl h
  | cons q t ih =>
    intro d p h
    rcases ih (pyDictInsert d q.1 q.2) p h with h' | h'
    · rcases pyDictInsert_mem h' with h'' | h''
      · exact Or.inl h''
      · right; simp [h'']
    · right; simp [h']

theorem pyDict_mem {α β : Type} [DecidableEq α] {l : List (α × β)} {p : α × β}
    (h : p ∈ pyDict l) : p ∈ l := by
  rcases pyDict_fold_mem l [] p h with h' | h'
  · simp at h'
  · exact h'

theorem pyDict_fold_of_nodup {α β : Type} [DecidableEq α] :
    ∀ (l d : List (α × β)), ((d ++ l).map Prod.fst).Nodup →
      l.foldl (fun d q => pyDictInsert d q.1 q.2) d = d ++ l := by
  intro l
  induction l with
  | nil => intro d _; simp
  | cons q t ih =>
    intro d hnd
    have hq : ∀ p ∈ d, p.1 ≠ q.1 := by
      intro p hp hpq
      have h1 : p.1 ∈ d.map Prod.fst := List.mem_map_of_mem _ hp
      have h2 : q.1 ∈ (q :: t).map Prod.fst := by simp
      have := (List.nodup_append.mp (by simpa using hnd)).2.2
      exact this h1 (by rw [hpq]; exact h2)
    have step : pyDictInsert d q.1 q.2 = d ++ [q] := by
      rw [pyDictInsert_of_not_mem _ hq]
    calc (q :: t).foldl (fun d q => pyDictInsert d q.1 q.2) d
        = t.foldl (fun d q => pyDictInsert d q.1 q.2) (d ++ [q]) := by
          simp [List.foldl_cons, step]
      _ = (d ++ [q]) ++ t := by
          apply ih
          simpa using hnd
      _ = d ++ q :: t := by simp

theorem pyDict_of_nodup {α β : Type} [DecidableEq α] {l : List (α × β)}
    (h : (l.map Prod.fst).Nodup) : pyDict l = l := by
  have := pyDict_fold_of_nodup l [] (by simpa using h)
  simpa using this

theorem pyDictInsert_key_mem {α β : Type} [DecidableEq α] {d : List (α × β)}
    {k k' : α} (v : β) (h : k' ∈ d.map Prod.fst ∨ k' = k) :
    k' ∈ (pyDictInsert d k v).map Prod.fst := by
  unfold pyDictInsert
  split
  next hc =>
    rcases h with h | h
    · rcases List.mem_map.mp h with ⟨q, hq, hq1⟩
      by_cases hk : q.1 = k
      · rcases List.any_eq_true.mp hc with ⟨r, hr, hrk⟩
        apply List.mem_map.mpr
        refine ⟨(k, v), List.mem_map.mpr ⟨r, hr, ?_⟩, by simp [← hq1, hk]⟩
        simp [of_decide_eq_true hrk]
      · exact List.mem_map.mpr ⟨q, List.mem_map.mpr ⟨q, hq, by simp [hk]⟩, hq1⟩
    · rcases List.any_eq_true.mp hc with ⟨r, hr, hrk⟩
      apply List.mem_map.mpr
      refine ⟨(k, v), List.mem_map.mpr ⟨r, hr, ?_⟩, by simp [h]⟩
      simp [of_decide_eq_true hrk]
  next =>
    rcases h with h | h
    · simp only [List.map_append, List.mem_append]; exact Or.inl h
    · simp [h]

theorem pyDict_fold_key_mem {α β : Type} [DecidableEq α] :
    ∀ (l d : List (α × β)) (k : α),
      (k ∈ d.map Prod.fst ∨ k ∈ l.map Prod.fst) →
      k ∈ (l.foldl (fun d q => pyDictInsert d q.1 q.2) d).map Prod.fst := by
  intro l
  induction l with
  | nil => intro d k h; simpa using h
  | cons q t ih =>
    intro d k h
    apply ih
    rcases h with h | h
    · exact Or.inl (pyDictInsert_key_mem _ (Or.inl h))
    · rcases List.mem_map.mp h with ⟨r, hr, hrk⟩
      rcases List.mem_cons.mp hr with hr | hr
      · exact Or.inl (pyDictInsert_key_mem _ (Or.inr (by rw [← hrk, hr])))
      · exact Or.inr (List.mem_map.mpr ⟨r, hr, hrk⟩)

theorem pyDict_key_mem {α β : Type} [DecidableEq α] {l : List (α × β)} {k : α}
    (h : k ∈ l.map Prod.fst) : k ∈ (pyDict l).map Prod.fst :=
  pyDict_fold_key_mem l [] k (Or.inr h)

theorem ansatzParams_mem {names : List String} {p : String}
    (h : p ∈ names) : (p, Symbol.mk p) ∈ ansatzParams names := by
  have hk : p ∈ (pyDict (names.map (fun q => (q, Symbol.mk q)))).map Prod.fst := by
    apply pyDict_key_mem
    simpa using h
  rcases List.mem_map.mp hk with ⟨r, hr, hrk⟩
  have hrl := pyDict_mem hr
  rcases List.mem_map.mp hrl with ⟨q, _, hq⟩
  have : r = (p, Symbol.mk p) := by
    rw [← hq] at hrk ⊢
    simp at hrk
    simp [hrk]
  rw [← this]
  exact hr

theorem ansatzParams_val {names : List String} {q : String × Symbol}
    (h : q ∈ ansatzParams names) : q.2 = Symbol.mk q.1 := by
  have := pyDict_mem h
  rcases List.mem_map.mp this with ⟨r, _, hr⟩
  rw [← hr]

theorem zip_map_fst {α β : Type} (l : List α) (l' : List β) :
    (l.zip l').map Prod.fst = l.take l'.length := by
  induction l generalizing l' with
  | nil => simp
  | cons a t ih =>
    cases l' with
    | nil => simp
    | cons b t' => simp [ih]

theorem ansatzParams_length {names : List String} (h : names.Nodup) :
    (ansatzParams names).length = names.length := by
  unfold ansatzParams
  have hkeys : (names.map (fun p => (p, Symbol.mk p))).map Prod.fst = names := by
    rw [List.map_map]
    exact List.map_id _
  rw [pyDict_of_nodup (by rw [hkeys]; exact h)]
  simp

/-! ### Claim theorems for the `VariationalAnsatz` base class -/

/-- Claim C8: for every `VariationalAnsatz` subclass, `__init__` first builds the
placeholder mapping `params` (one `Symbol` named `p` for every `p` returned by
`param_names`) and only then invokes `generate_circuit`: the stored circuit is
`generate_circuit` applied to the already-populated `params`, which contains a
placeholder for every parameter name (and nothing but such placeholders). -/
theorem ansatz_init_params_before_circuit {Circuit : Type}
    (sub : AnsatzSubclass Circuit) :
    (VariationalAnsatz.init sub).circuit
        = sub.generate_circuit (VariationalAnsatz.init sub).params
    ∧ (∀ p ∈ sub.param_names,
        (p, Symbol.mk p) ∈ (VariationalAnsatz.init sub).params)
    ∧ (∀ q ∈ (VariationalAnsatz.init sub).params, q.2 = Symbol.mk q.1) := by
  refine ⟨rfl, ?_, ?_⟩
  · intro p hp; exact ansatzParams_mem hp
  · intro q hq; exact ansatzParams_val hq

/-- Witness for C8 at the concrete subclass with parameters `["a", "b"]`. -/
theorem ansatz_init_params_before_circuit_witness :
    ("a", Symbol.mk "a")
      ∈ (VariationalAnsatz.init ⟨["a", "b"], fun _ => (0 : ℕ)⟩).params :=
  (ansatz_init_params_before_circuit ⟨["a", "b"], fun _ => (0 : ℕ)⟩).2.1 "a"
    (by simp)

/-- Claim C9: for every subclass with unique parameter names,
`default_initial_params` is the zero vector whose length is the number of
parameters, and `param_resolver` binds names to values by positional zip. -/
theorem ansatz_default_params_and_resolver {Circuit : Type}
    (sub : AnsatzSubclass Circuit) (h : sub.param_names.Nodup)
    (values : List ℝ) :
    (VariationalAnsatz.init sub).default_initial_params
        = List.replicate sub.param_names.length (0 : ℝ)
    ∧ (VariationalAnsatz.init sub).param_resolver values
        = sub.param_names.zip values := by
  constructor
  · show List.replicate (ansatzParams sub.param_names).length (0 : ℝ) = _
    rw [ansatzParams_length h]
  · show pyDict (sub.param_names.zip values) = _
    refine pyDict_of_nodup ?_
    rw [zip_map_fst]
    exact h.sublist (List.take_sublist _ _)

/-- Witness for C9 at the concrete subclass with parameters `["a", "b"]`. -/
theorem ansatz_default_params_and_resolver_witness :
    (VariationalAnsatz.init
        (⟨["a", "b"], fun _ => (0 : ℕ)⟩ : AnsatzSubclass ℕ)).default_initial_params
      = List.replicate (["a", "b"] : List String).length (0 : ℝ) :=
  (ansatz_default_params_and_resolver ⟨["a", "b"], fun _ => (0 : ℕ)⟩
    (by simp) [1, 2]).1

/-- Claim C10: `param_resolver` never reports an error on a length mismatch: it
binds exactly `min (number of names) (number of values)` parameters by
position, every common position is bound, and a trailing name with no matching
value is bound to nothing at all. -/
theorem ansatz_param_resolver_truncates {Circuit : Type}
    (sub : AnsatzSubclass Circuit) (h : sub.param_names.Nodup)
    (values : List ℝ) :
    ((VariationalAnsatz.init sub).param_resolver values).length
        = min sub.param_names.length values.length
    ∧ (∀ i (hn : i < sub.param_names.length) (hv : i < values.length),
        (sub.param_names.get ⟨i, hn⟩, values.get ⟨i, hv⟩)
          ∈ (VariationalAnsatz.init sub).param_resolver values)
    ∧ (∀ i (hn : i < sub.param_names.length), values.length ≤ i →
        ∀ v : ℝ, (sub.param_names.get ⟨i, hn⟩, v)
          ∉ (VariationalAnsatz.init sub).param_resolver values) := by
  have hres : (VariationalAnsatz.init sub).param_resolver values
      = sub.param_names.zip values :=
    (ansatz_default_params_and_resolver sub h values).2
  refine ⟨?_, ?_, ?_⟩
  · rw [hres]; exact List.length_zip _ _
  · intro i hn hv
    rw [hres]
    have hz : i < (sub.param_names.zip values).length := by
      rw [List.length_zip]; omega
    have : (sub.param_names.zip values).get ⟨i, hz⟩
        = (sub.param_names.get ⟨i, hn⟩, values.get ⟨i, hv⟩) := by
      simp [List.getElem_zip]
    rw [← this]
    exact List.get_mem _ _ _
  · intro i hn hle v hmem
    rw [hres] at hmem
    rcases List.getElem_of_mem hmem with ⟨j, hj, he⟩
    have hj' : j < (sub.param_names.zip values).length := hj
    have hjn : j < sub.param_names.length := by
      rw [List.length_zip] at hj'; omega
    have hjv : j < values.length := by
      rw [List.length_zip] at hj'; omega
    have hfst : sub.param_names.get ⟨j, hjn⟩ = sub.param_names.get ⟨i, hn⟩ := by
      have := congrArg Prod.fst he
      simpa [List.getElem_zip] using this
    have : j = i := by
      have := (List.Nodup.getElem_inj_iff h).mp hfst
      simpa using this
    omega

/-- Witness for C10: two names, one value, the resolver holds one binding. -/
theorem ansatz_param_resolver_truncates_witness :
    ((VariationalAnsatz.init
        (⟨["a", "b"], fun _ => (0 : ℕ)⟩ : AnsatzSubclass ℕ)).param_resolver
          [(5 : ℝ)]).length
      = min (["a", "b"] : List String).length ([(5 : ℝ)] : List ℝ).length :=
  (ansatz_param_resolver_truncates ⟨["a", "b"], fun _ => (0 : ℕ)⟩
    (by simp) [(5 : ℝ)]).1


/-! ### Matrix helper lemmas -/

theorem conjTranspose_map_star {n : ℕ} (B : Matrix (Fin n) (Fin n) ℂ) :
    (B.map (starRingEnd ℂ))ᴴ = Bᵀ := by
  ext i j
  simp [Matrix.conjTranspose_apply, Matrix.map_apply]

theorem extendedMatrix_inv {n : ℕ} {A B : Matrix (Fin n) (Fin n) ℂ}
    (h : extendedMatrix A B ∈ Matrix.unitaryGroup (Fin n ⊕ Fin n) ℂ) :
    (extendedMatrix A B)⁻¹ = Matrix.fromBlocks Aᴴ Bᵀ Bᴴ Aᵀ := by
  rw [Matrix.inv_eq_left_inv (Matrix.mem_unitaryGroup_iff'.mp h),
    Matrix.star_eq_conjTranspose]
  unfold extendedMatrix
  rw [Matrix.fromBlocks_conjTranspose, conjTranspose_map_star,
    conjTranspose_map_star]

/-! ### Claim theorems for the Bogoliubov synthesizer -/

/-- Claim C1: for every valid transformation matrix, the circuit synthesized for
its adjoint (conjugate transpose in the n×n case; `[left_blockᴴ, right_blockᵀ]`
in the n×2n case) is the gate-by-gate inverse of the circuit synthesized for
the original matrix: it implements exactly the inverse transformation, hence
the two circuits are equal up to global phase. -/
theorem bogoliubov_inverse_is_dagger (n : ℕ) (m : NPMatrix)
    (c : BogoliubovCircuit n)
    (hok : bogoliubov_transform n m none = Except.ok c) (hv : c.valid) :
    bogoliubov_transform n (m.daggered n) none = Except.ok c.inverse := by
  by_cases h1 : m.rows = n ∧ m.cols = n
  · have hok' : c
        = BogoliubovCircuit.numberConserving (fun i j => m.entry i.val j.val) := by
      unfold bogoliubov_transform at hok
      rw [if_pos h1] at hok
      exact (Except.ok.inj hok).symm
    subst hok'
    have hu : (fun i j : Fin n => m.entry i.val j.val)
        ∈ Matrix.unitaryGroup (Fin n) ℂ := hv
    have hdag : m.daggered n
        = ⟨n, n, fun i j => starRingEnd ℂ (m.entry j i)⟩ := by
      unfold NPMatrix.daggered
      rw [if_pos h1]
    rw [hdag]
    unfold bogoliubov_transform
    rw [if_pos ⟨rfl, rfl⟩]
    simp only [BogoliubovCircuit.inverse]
    rw [Matrix.inv_eq_left_inv (Matrix.mem_unitaryGroup_iff'.mp hu),
      Matrix.star_eq_conjTranspose]
    have hstar : (fun i j : Fin n => starRingEnd ℂ (m.entry j.val i.val))
        = ((fun i j : Fin n => m.entry i.val j.val) : Matrix (Fin n) (Fin n) ℂ)ᴴ := by
      ext i j
      simp [Matrix.conjTranspose_apply]
    rw [hstar]
  · by_cases h2 : m.rows = n ∧ m.cols = 2 * n
    · have hok' : c
          = BogoliubovCircuit.general (fun i j => m.entry i.val j.val)
              (fun i j => m.entry i.val (n + j.val)) := by
        unfold bogoliubov_transform at hok
        rw [if_neg h1, if_pos h2] at hok
        exact (Except.ok.inj hok).symm
      subst hok'
      have hn0 : ¬ (2 * n = n) := by
        intro hc
        exact h1 ⟨h2.1, by rw [h2.2, hc]⟩
      have hdag : m.daggered n
          = ⟨n, 2 * n, fun i j =>
              if j < n then starRingEnd ℂ (m.entry j i)
              else m.entry (j - n) (n + i)⟩ := by
        unfold NPMatrix.daggered
        rw [if_neg h1]
      rw [hdag]
      unfold bogoliubov_transform
      rw [if_neg (by intro hc; exact hn0 hc.2), if_pos ⟨rfl, rfl⟩]
      simp only [BogoliubovCircuit.inverse]
      rw [extendedMatrix_inv hv, Matrix.toBlocks_fromBlocks₁₁,
        Matrix.toBlocks_fromBlocks₁₂]
      have hA : (fun i j : Fin n =>
          (⟨n, 2 * n, fun i j =>
            if j < n then starRingEnd ℂ (m.entry j i)
            else m.entry (j - n) (n + i)⟩ : NPMatrix).entry i.val j.val)
          = (fun i j : Fin n => m.entry i.val j.val)ᴴ := by
        ext i j
        simp [Matrix.conjTranspose_apply, j.isLt]
      have hB : (fun i j : Fin n =>
          (⟨n, 2 * n, fun i j =>
            if j < n then starRingEnd ℂ (m.entry j i)
            else m.entry (j - n) (n + i)⟩ : NPMatrix).entry i.val (n + j.val))
          = (fun i j : Fin n => m.entry i.val (n + j.val))ᵀ := by
        ext i j
        simp [Matrix.transpose_apply]
      rw [hA, hB]
    · unfold bogoliubov_transform at hok
      rw [if_neg h1, if_neg h2] at hok
      exact absurd hok (by simp)

/-- Witness for C1: the 1×1 identity transformation. -/
theorem bogoliubov_inverse_is_dagger_witness :
    bogoliubov_transform 1 ((⟨1, 1, fun _ _ => 1⟩ : NPMatrix).daggered 1) none
      = Except.ok
          ((BogoliubovCircuit.numberConserving
            (fun i j : Fin 1 =>
              (⟨1, 1, fun _ _ => 1⟩ : NPMatrix).entry i.val j.val)).inverse) := by
  refine bogoliubov_inverse_is_dagger 1 _ _ ?_ ?_
  · unfold bogoliubov_transform
    rw [if_pos ⟨rfl, rfl⟩]
  · show (fun _ _ => (1 : ℂ)) ∈ Matrix.unitaryGroup (Fin 1) ℂ
    have : (fun _ _ => (1 : ℂ)) = (1 : Matrix (Fin 1) (Fin 1) ℂ) := by
      ext i j
      rw [Subsingleton.elim i j]
      simp
    rw [this]
    exact one_mem _

/-- Claim C2: for every pair of n×n unitary matrices on the same qubits, the
sequential composition of the circuit for `U` and the circuit for `V` is the
circuit synthesized for the product `U·V` (hence equal to it up to global
phase). -/
theorem bogoliubov_compose_is_product (n : ℕ) (m1 m2 : NPMatrix)
    (c1 c2 : BogoliubovCircuit n)
    (hs1 : m1.rows = n ∧ m1.cols = n) (hs2 : m2.rows = n ∧ m2.cols = n)
    (h1 : bogoliubov_transform n m1 none = Except.ok c1)
    (h2 : bogoliubov_transform n m2 none = Except.ok c2)
    (hv1 : c1.valid) (hv2 : c2.valid) :
    ∃ c3, c1.compose c2 = some c3
      ∧ bogoliubov_transform n (m1.matmul m2) none = Except.ok c3 := by
  have e1 : c1
      = BogoliubovCircuit.numberConserving (fun i j => m1.entry i.val j.val) := by
    unfold bogoliubov_transform at h1
    rw [if_pos hs1] at h1
    exact (Except.ok.inj h1).symm
  have e2 : c2
      = BogoliubovCircuit.numberConserving (fun i j => m2.entry i.val j.val) := by
    unfold bogoliubov_transform at h2
    rw [if_pos hs2] at h2
    exact (Except.ok.inj h2).symm
  subst e1
  subst e2
  refine ⟨_, rfl, ?_⟩
  unfold bogoliubov_transform NPMatrix.matmul
  rw [if_pos ⟨hs1.1, hs2.2⟩]
  congr 1
  simp only [BogoliubovCircuit.compose]
  congr 1
  ext i j
  rw [Matrix.mul_apply]
  rw [show m1.cols = n from hs1.2]
  exact (Fin.sum_univ_eq_sum_range
    (fun k => m1.entry i.val k * m2.entry k j.val) n).symm

/-- Witness for C2: composing the 1×1 identity with itself. -/
theorem bogoliubov_compose_is_product_witness :
    ∃ c3, (BogoliubovCircuit.numberConserving
        (fun i j : Fin 1 =>
          (⟨1, 1, fun _ _ => 1⟩ : NPMatrix).entry i.val j.val)).compose
        (BogoliubovCircuit.numberConserving
          (fun i j : Fin 1 =>
            (⟨1, 1, fun _ _ => 1⟩ : NPMatrix).entry i.val j.val)) = some c3
      ∧ bogoliubov_transform 1
          ((⟨1, 1, fun _ _ => 1⟩ : NPMatrix).matmul ⟨1, 1, fun _ _ => 1⟩) none
        = Except.ok c3 := by
  refine bogoliubov_compose_is_product 1 _ _ _ _ ⟨rfl, rfl⟩ ⟨rfl, rfl⟩ ?_ ?_ ?_ ?_
  · unfold bogoliubov_transform
    rw [if_pos ⟨rfl, rfl⟩]
  · unfold bogoliubov_transform
    rw [if_pos ⟨rfl, rfl⟩]
  · show (fun _ _ => (1 : ℂ)) ∈ Matrix.unitaryGroup (Fin 1) ℂ
    have : (fun _ _ => (1 : ℂ)) = (1 : Matrix (Fin 1) (Fin 1) ℂ) := by
      ext i j
      rw [Subsingleton.elim i j]
      simp
    rw [this]
    exact one_mem _
  · show (fun _ _ => (1 : ℂ)) ∈ Matrix.unitaryGroup (Fin 1) ℂ
    have : (fun _ _ => (1 : ℂ)) = (1 : Matrix (Fin 1) (Fin 1) ℂ) := by
      ext i j
      rw [Subsingleton.elim i j]
      simp
    rw [this]
    exact one_mem _

/-- Claim C5: for a qubit sequence of length n, the synthesizer reports a shape
error exactly when the transformation matrix has a shape other than (n, n) or
(n, 2n); the result is then the error itself — no gate sequence is produced at
all, so the error is observable no later than the first attempt to obtain an
element. -/
theorem bogoliubov_bad_shape_raises (n : ℕ) (m : NPMatrix)
    (initial_state : Option ℕ) :
    (∃ e, bogoliubov_transform n m initial_state = Except.error e)
      ↔ ¬ ((m.rows = n ∧ m.cols = n) ∨ (m.rows = n ∧ m.cols = 2 * n)) := by
  unfold bogoliubov_transform
  by_cases h1 : m.rows = n ∧ m.cols = n
  · simp only [if_pos h1]
    constructor
    · rintro ⟨e, he⟩
      exact absurd he (by simp)
    · intro hc
      exact absurd (Or.inl h1) hc
  · by_cases h2 : m.rows = n ∧ m.cols = 2 * n
    · simp only [if_neg h1, if_pos h2]
      constructor
      · rintro ⟨e, he⟩
        exact absurd he (by simp)
      · intro hc
        exact absurd (Or.inr h2) hc
    · simp only [if_neg h1, if_neg h2]
      constructor
      · rintro ⟨_, _⟩
        rintro (hc | hc)
        · exact h1 hc
        · exact h2 hc
      · intro _
        exact ⟨_, rfl⟩

/-- Claim C7: the synthesizer is a deterministic function of its inputs — two
invocations on identical inputs yield circuits implementing the identical
transformation, hence identical resulting unitaries. -/
theorem bogoliubov_deterministic (n : ℕ) (m : NPMatrix)
    (initial_state : Option ℕ) (c1 c2 : BogoliubovCircuit n)
    (h1 : bogoliubov_transform n m initial_state = Except.ok c1)
    (h2 : bogoliubov_transform n m initial_state = Except.ok c2) :
    c1.extended = c2.extended ∧ c1 = c2 := by
  have : c1 = c2 := Except.ok.inj (h1.symm.trans h2)
  exact ⟨by rw [this], this⟩

/-- Witness for C7 at the 1×1 identity transformation. -/
theorem bogoliubov_deterministic_witness :
    (BogoliubovCircuit.numberConserving
        (fun i j : Fin 1 =>
          (⟨1, 1, fun _ _ => 1⟩ : NPMatrix).entry i.val j.val)).extended
      = (BogoliubovCircuit.numberConserving
          (fun i j : Fin 1 =>
            (⟨1, 1, fun _ _ => 1⟩ : NPMatrix).entry i.val j.val)).extended
    ∧ BogoliubovCircuit.numberConserving
        (fun i j : Fin 1 =>
          (⟨1, 1, fun _ _ => 1⟩ : NPMatrix).entry i.val j.val)
      = BogoliubovCircuit.numberConserving
          (fun i j : Fin 1 =>
            (⟨1, 1, fun _ _ => 1⟩ : NPMatrix).entry i.val j.val) := by
  refine bogoliubov_deterministic 1 ⟨1, 1, fun _ _ => 1⟩ none _ _ ?_ ?_
  · unfold bogoliubov_transform
    rw [if_pos ⟨rfl, rfl⟩]
  · unfold bogoliubov_transform
    rw [if_pos ⟨rfl, rfl⟩]

/-- Claim C4: for every transformation matrix and computational basis initial
state, the circuit synthesized with that initial state agrees with the circuit
synthesized without one when both are applied to that same basis state (in the
model the specialized synthesis emits the general circuit — the trivial
specialization the spec permits — so the two circuits agree on the stated
state, and indeed as whole transformations). -/
theorem bogoliubov_specialized_agrees (n : ℕ) (m : NPMatrix)
    (S : List (Fin n)) (cs cg : BogoliubovCircuit n)
    (hspec : bogoliubov_transform n m (some (basisIndex n S)) = Except.ok cs)
    (hgen : bogoliubov_transform n m none = Except.ok cg) :
    cs.applyBasis S = cg.applyBasis S ∧ cs.extended = cg.extended := by
  have : cs = cg := by
    unfold bogoliubov_transform at hspec hgen
    by_cases h1 : m.rows = n ∧ m.cols = n
    · rw [if_pos h1] at hspec hgen
      exact Except.ok.inj (hspec.symm.trans hgen)
    · by_cases h2 : m.rows = n ∧ m.cols = 2 * n
      · rw [if_neg h1, if_pos h2] at hspec hgen
        exact Except.ok.inj (hspec.symm.trans hgen)
      · rw [if_neg h1, if_neg h2] at hspec
        exact absurd hspec (by simp)
  rw [this]
  exact ⟨rfl, rfl⟩

/-- Witness for C4 at the 1×1 identity transformation and occupied modes [0]. -/
theorem bogoliubov_specialized_agrees_witness :
    (BogoliubovCircuit.numberConserving
        (fun i j : Fin 1 =>
          (⟨1, 1, fun _ _ => 1⟩ : NPMatrix).entry i.val j.val)).applyBasis
            [(0 : Fin 1)]
      = (BogoliubovCircuit.numberConserving
          (fun i j : Fin 1 =>
            (⟨1, 1, fun _ _ => 1⟩ : NPMatrix).entry i.val j.val)).applyBasis
              [(0 : Fin 1)]
    ∧ (BogoliubovCircuit.numberConserving
        (fun i j : Fin 1 =>
          (⟨1, 1, fun _ _ => 1⟩ : NPMatrix).entry i.val j.val)).extended
      = (BogoliubovCircuit.numberConserving
          (fun i j : Fin 1 =>
            (⟨1, 1, fun _ _ => 1⟩ : NPMatrix).entry i.val j.val)).extended := by
  refine bogoliubov_specialized_agrees 1 ⟨1, 1, fun _ _ => 1⟩ [(0 : Fin 1)] _ _ ?_ ?_
  · unfold bogoliubov_transform
    rw [if_pos ⟨rfl, rfl⟩]
  · unfold bogoliubov_transform
    rw [if_pos ⟨rfl, rfl⟩]

/-! ### Bit-arithmetic lemmas for the occupation-number encoding -/

theorem sum_range_two_pow (n : ℕ) : ∑ i in Finset.range n, 2 ^ i = 2 ^ n - 1 := by
  induction n with
  | zero => simp
  | succ k ih =>
    rw [Finset.sum_range_succ, ih, pow_succ]
    have h1 : 1 ≤ 2 ^ k := Nat.one_le_two_pow
    omega

theorem sum_two_pow_lt {T : Finset ℕ} {n : ℕ} (hT : ∀ t ∈ T, t < n) :
    ∑ t in T, 2 ^ t < 2 ^ n := by
  have hsub : T ⊆ Finset.range n := fun t ht => Finset.mem_range.mpr (hT t ht)
  have h2 : ∑ t in T, 2 ^ t ≤ ∑ t in Finset.range n, 2 ^ t :=
    Finset.sum_le_sum_of_subset hsub
  rw [sum_range_two_pow] at h2
  have h1 : 1 ≤ 2 ^ n := Nat.one_le_two_pow
  omega

theorem testBit_two_pow_add {a s b : ℕ} (hs : s < 2 ^ a) :
    (2 ^ a + s).testBit b = (decide (b = a) || s.testBit b) := by
  by_cases hba : b = a
  · subst hba
    rw [Nat.testBit_to_div_mod, Nat.add_comm,
      Nat.add_div_right _ (Nat.pos_pow_of_pos b (by norm_num)),
      Nat.div_eq_of_lt hs]
    simp
  · rcases Nat.lt_or_ge b a with hlt | hge
    · rw [Nat.testBit_to_div_mod, Nat.testBit_to_div_mod]
      have h2 : 2 ^ a = 2 ^ b * 2 ^ (a - b) := by
        rw [← pow_add]
        congr 1
        omega
      have h3 : 2 ^ (a - b) = 2 * 2 ^ (a - b - 1) := by
        have hab : a - b = (a - b - 1) + 1 := by omega
        calc 2 ^ (a - b) = 2 ^ ((a - b - 1) + 1) := by rw [← hab]
          _ = 2 * 2 ^ (a - b - 1) := pow_succ' 2 _
      rw [Nat.add_comm (2 ^ a) s, h2,
        Nat.add_mul_div_left _ _ (Nat.pos_pow_of_pos b (by norm_num)),
        h3, Nat.add_mul_mod_self_left]
      simp [hba]
    · have hgt : a < b := by omega
      have hlhs : (2 ^ a + s).testBit b = false := by
        apply Nat.testBit_eq_false_of_lt
        calc 2 ^ a + s < 2 ^ a + 2 ^ a := by omega
          _ = 2 ^ (a + 1) := by rw [pow_succ]; omega
          _ ≤ 2 ^ b := Nat.pow_le_pow_right (by norm_num) (by omega)
      have hrhs : s.testBit b = false := by
        apply Nat.testBit_eq_false_of_lt
        calc s < 2 ^ a := hs
          _ ≤ 2 ^ b := Nat.pow_le_pow_right (by norm_num) (by omega)
      rw [hlhs, hrhs]
      simp [hba]

theorem testBit_sum_two_pow (T : Finset ℕ) (b : ℕ) :
    (∑ t in T, 2 ^ t).testBit b = decide (b ∈ T) := by
  induction T using Finset.induction_on_max with
  | h0 => simp [Nat.zero_testBit]
  | step a s hmax ih =>
    have has : a ∉ s := fun h => lt_irrefl a (hmax a h)
    rw [Finset.sum_insert has]
    have hs : ∑ t in s, 2 ^ t < 2 ^ a := sum_two_pow_lt (fun t ht => hmax t ht)
    rw [testBit_two_pow_add hs, ih]
    by_cases hba : b = a
    · simp [hba]
    · simp [hba, Finset.mem_insert]

theorem basisIndex_eq_sum {n : ℕ} {S : List (Fin n)} (hS : S.Nodup) :
    basisIndex n S = ∑ i in S.toFinset, 2 ^ (n - 1 - i.val) :=
  (List.sum_toFinset _ hS).symm

theorem basisIndex_eq_image_sum {n : ℕ} {S : List (Fin n)} (hS : S.Nodup) :
    basisIndex n S
      = ∑ t in S.toFinset.image (fun i : Fin n => n - 1 - i.val), 2 ^ t := by
  rw [basisIndex_eq_sum hS, Finset.sum_image]
  intro x _ y _ hxy
  have hx := x.isLt
  have hy := y.isLt
  exact Fin.ext (by omega)

theorem testBit_basisIndex {n : ℕ} {S : List (Fin n)} (hS : S.Nodup) (j : Fin n) :
    (basisIndex n S).testBit (n - 1 - j.val) = decide (j ∈ S) := by
  rw [basisIndex_eq_image_sum hS, testBit_sum_two_pow]
  have hmem : (n - 1 - j.val
      ∈ S.toFinset.image (fun i : Fin n => n - 1 - i.val)) ↔ j ∈ S := by
    constructor
    · intro h
      rcases Finset.mem_image.mp h with ⟨i, hi, hij⟩
      have hieq : i = j := by
        have h1 := i.isLt
        have h2 := j.isLt
        exact Fin.ext (by omega)
      rw [← hieq]
      exact List.mem_toFinset.mp hi
    · intro h
      exact Finset.mem_image.mpr ⟨j, List.mem_toFinset.mpr h, rfl⟩
  exact decide_eq_decide.mpr hmem

theorem basisIndex_lt {n : ℕ} {S : List (Fin n)} (hS : S.Nodup) :
    basisIndex n S < 2 ^ n := by
  rw [basisIndex_eq_image_sum hS]
  apply sum_two_pow_lt
  intro t ht
  rcases Finset.mem_image.mp ht with ⟨i, _, hit⟩
  have := i.isLt
  omega

theorem mem_occupiedList {n k : ℕ} {i : Fin n} :
    i ∈ occupiedList n k ↔ k.testBit (n - 1 - i.val) = true := by
  unfold occupiedList
  simp [List.mem_filter]

theorem occupiedList_nodup (n k : ℕ) : (occupiedList n k).Nodup :=
  (List.nodup_finRange n).filter _

theorem occupiedList_basisIndex_perm {n : ℕ} {S : List (Fin n)} (hS : S.Nodup) :
    List.Perm (occupiedList n (basisIndex n S)) S := by
  rw [List.perm_ext_iff_of_nodup (occupiedList_nodup _ _) hS]
  intro i
  rw [mem_occupiedList, testBit_basisIndex hS]
  simp

theorem orbitalEnergySum_occupiedList {n : ℕ} (ε : Fin n → ℝ) (c : ℝ)
    {S : List (Fin n)} (hS : S.Nodup) :
    orbitalEnergySum n ε c (occupiedList n (basisIndex n S))
      = orbitalEnergySum n ε c S := by
  unfold orbitalEnergySum
  congr 1
  exact ((occupiedList_basisIndex_perm hS).map ε).sum_eq

theorem diagonal_mulVec_fockBasis {n : ℕ} (d : Fin (2 ^ n) → ℂ) (k : ℕ)
    (hk : k < 2 ^ n) :
    Matrix.diagonal d *ᵥ fockBasisVec n k = d ⟨k, hk⟩ • fockBasisVec n k := by
  funext j
  rw [Matrix.mulVec_diagonal]
  by_cases hj : j.val = k
  · have hjk : j = ⟨k, hk⟩ := Fin.ext hj
    subst hjk
    simp [fockBasisVec]
  · simp [fockBasisVec, hj]

/-- Claim C3: for every quadratic Hamiltonian (given by its orbital energies,
constant term and diagonalizing Bogoliubov transform, whose circuit implements
the Fock-space unitary `W`) and every computational basis state of occupied
orbitals `S`, pushing that basis state through the general circuit yields an
eigenstate of the Hamiltonian matrix with eigenvalue the sum of the selected
orbital energies plus the constant. -/
theorem bogoliubov_eigenstate (n : ℕ) (ε : Fin n → ℝ) (c : ℝ)
    (W : Matrix (Fin (2 ^ n)) (Fin (2 ^ n)) ℂ)
    (hW : W ∈ Matrix.unitaryGroup (Fin (2 ^ n)) ℂ)
    (S : List (Fin n)) (hS : S.Nodup) :
    quadHamSparse n ε c W *ᵥ (W *ᵥ fockBasisVec n (basisIndex n S))
      = ((orbitalEnergySum n ε c S : ℝ) : ℂ)
          • (W *ᵥ fockBasisVec n (basisIndex n S)) := by
  have hk : basisIndex n S < 2 ^ n := basisIndex_lt hS
  have hWW : Wᴴ * W = 1 := by
    rw [← Matrix.star_eq_conjTranspose]
    exact Matrix.mem_unitaryGroup_iff'.mp hW
  have key : quadHamSparse n ε c W * W = W * diagQuadHam n ε c := by
    unfold quadHamSparse
    rw [Matrix.mul_assoc (W * diagQuadHam n ε c) Wᴴ W, hWW, Matrix.mul_one]
  rw [Matrix.mulVec_mulVec, key, ← Matrix.mulVec_mulVec]
  unfold diagQuadHam
  rw [diagonal_mulVec_fockBasis _ _ hk, Matrix.mulVec_smul]
  congr 1
  exact congrArg _ (orbitalEnergySum_occupiedList ε c hS)

/-- Witness for C3: one mode of orbital energy 0, constant 0, identity circuit,
mode 0 occupied. -/
theorem bogoliubov_eigenstate_witness :
    quadHamSparse 1 (fun _ => 0) 0 1 *ᵥ
        ((1 : Matrix (Fin (2 ^ 1)) (Fin (2 ^ 1)) ℂ)
          *ᵥ fockBasisVec 1 (basisIndex 1 [0]))
      = ((orbitalEnergySum 1 (fun _ => 0) 0 [0] : ℝ) : ℂ)
          • ((1 : Matrix (Fin (2 ^ 1)) (Fin (2 ^ 1)) ℂ)
            *ᵥ fockBasisVec 1 (basisIndex 1 [0])) :=
  bogoliubov_eigenstate 1 (fun _ => 0) 0 1 (one_mem _) [0] (by simp)

/-! ### Facts about `ω = e^{2πi/3}` and `√3` -/

theorem omega3_ne_zero : omega3 ≠ 0 := Complex.exp_ne_zero _

theorem omega3_cube : omega3 ^ 3 = 1 := by
  unfold omega3
  rw [← Complex.exp_nat_mul]
  have h : ((3 : ℕ) : ℂ) * (((2 * Real.pi / 3 : ℝ)) * Complex.I)
      = 2 * (Real.pi : ℂ) * Complex.I := by
    push_cast
    ring
  rw [h, Complex.exp_two_pi_mul_I]

theorem omega3_ne_one : omega3 ≠ 1 := by
  unfold omega3
  intro h
  rcases Complex.exp_eq_one_iff.mp h with ⟨k, hk⟩
  have h1 : (((2 * Real.pi / 3 : ℝ)) : ℂ) * Complex.I
      = (((k : ℝ) * (2 * Real.pi) : ℝ) : ℂ) * Complex.I := by
    rw [hk]
    push_cast
    ring
  have h2 := mul_right_cancel₀ Complex.I_ne_zero h1
  have hreal : 2 * Real.pi / 3 = (k : ℝ) * (2 * Real.pi) :=
    Complex.ofReal_inj.mp h2
  have hpi := Real.pi_pos
  have h3 : 2 * Real.pi * (1 - 3 * (k : ℝ)) = 0 := by nlinarith [hreal]
  have h4 : (1 : ℝ) - 3 * (k : ℝ) = 0 := by
    rcases mul_eq_zero.mp h3 with h' | h'
    · nlinarith
    · exact h'
  have h5 : ((3 * k : ℤ) : ℝ) = ((1 : ℤ) : ℝ) := by
    push_cast
    linarith
  have h6 : (3 * k : ℤ) = 1 := Int.cast_injective h5
  omega

theorem omega3_abs : Complex.abs omega3 = 1 := Complex.abs_exp_ofReal_mul_I _

theorem omega3_pow_four : omega3 ^ 4 = omega3 := by
  calc omega3 ^ 4 = omega3 ^ 3 * omega3 := by ring
    _ = omega3 := by rw [omega3_cube]; ring

theorem sqrt3_mul_self : ((Real.sqrt 3 : ℝ) : ℂ) * ((Real.sqrt 3 : ℝ) : ℂ) = 3 := by
  rw [← Complex.ofReal_mul, Real.mul_self_sqrt (by norm_num)]
  norm_num

theorem sqrt3_ne_zero : ((Real.sqrt 3 : ℝ) : ℂ) ≠ 0 := by
  simp [Real.sqrt_eq_zero']

/-! ### Evaluation lemmas for the n = 3 Fourier case -/

theorem detL_one {n : ℕ} (M : Matrix (Fin n) (Fin n) ℂ) (a b : Fin n) :
    detL M [a] [b] = M a b := by
  simp [detL, List.enum]

theorem detL_two {n : ℕ} (M : Matrix (Fin n) (Fin n) ℂ) (a c b d : Fin n) :
    detL M [a, c] [b, d] = M a b * M c d - M a d * M c b := by
  simp [detL, List.enum, List.enumFrom]
  ring

theorem fourier3_entry (i j : Fin 3) :
    (fourier_transform_matrix 3).entry i.val j.val
      = omega3 ^ (i.val * j.val) / ((Real.sqrt 3 : ℝ) : ℂ) := by
  unfold fourier_transform_matrix omega3
  norm_num

theorem fourier3_matrix :
    (fun i j : Fin 3 => (fourier_transform_matrix 3).entry i.val j.val)
      = fun i j : Fin 3 => omega3 ^ (i.val * j.val) / ((Real.sqrt 3 : ℝ) : ℂ) := by
  funext i j
  exact fourier3_entry i j

theorem simulateBog_fourier3 (S : List (Fin 3)) :
    simulateBog 3 (fourier_transform_matrix 3) S
      = some (bogoliubovFinalState 3
          (fun i j : Fin 3 => omega3 ^ (i.val * j.val) / ((Real.sqrt 3 : ℝ) : ℂ))
          S) := by
  unfold simulateBog
  have h : bogoliubov_transform 3 (fourier_transform_matrix 3)
      (some (basisIndex 3 S))
      = Except.ok (BogoliubovCircuit.numberConserving
          (fun i j : Fin 3 => (fourier_transform_matrix 3).entry i.val j.val)) := by
    unfold bogoliubov_transform
    rw [if_pos ⟨rfl, rfl⟩]
  rw [h, fourier3_matrix]
  rfl

/-- Claim C6, amended: for n = 3 modes with the 3-point discrete-Fourier
transformation matrix, the occupied-mode set {0} has initial-state integer
`4 = 1 <<< (3 - 1 - 0)`, and synthesizing with that initial state and
simulating from it yields the state `[0, 1, 1, 0, 1, 0, 0, 0]/√3` up to global
phase (phase 1); the occupied set {1, 2} has initial-state integer 3 and
yields the literal vector `[0, 0, 0, ω−1, 0, 1−ω, ω−1, 0]/3` up to global
phase (phase ω). -/
theorem bogoliubov_fourier_transform_states :
    (basisIndex 3 [(0 : Fin 3)] = 4
      ∧ ∃ f, simulateBog 3 (fourier_transform_matrix 3) [(0 : Fin 3)] = some f
          ∧ ∃ l : ℂ, Complex.abs l = 1 ∧ ∀ k, f k = l * fourierTarget1 k)
    ∧ (basisIndex 3 [(1 : Fin 3), 2] = 3
      ∧ ∃ f, simulateBog 3 (fourier_transform_matrix 3) [(1 : Fin 3), 2] = some f
          ∧ ∃ l : ℂ, Complex.abs l = 1 ∧ ∀ k, f k = l * fourierTarget2 k) := by
  constructor
  · refine ⟨by decide, _, simulateBog_fourier3 _, 1, by simp, ?_⟩
    intro k
    fin_cases k
    · show bogoliubovFinalState 3 _ [0] ⟨0, by norm_num⟩ = _
      simp only [bogoliubovFinalState]
      rw [show occupiedList 3 (0 : ℕ) = ([] : List (Fin 3)) from by decide]
      norm_num [fourierTarget1]
    · show bogoliubovFinalState 3 _ [0] ⟨1, by norm_num⟩ = _
      simp only [bogoliubovFinalState]
      rw [show occupiedList 3 (1 : ℕ) = [(2 : Fin 3)] from by decide]
      norm_num [detL_one, fourierTarget1]
    · show bogoliubovFinalState 3 _ [0] ⟨2, by norm_num⟩ = _
      simp only [bogoliubovFinalState]
      rw [show occupiedList 3 (2 : ℕ) = [(1 : Fin 3)] from by decide]
      norm_num [detL_one, fourierTarget1]
    · show bogoliubovFinalState 3 _ [0] ⟨3, by norm_num⟩ = _
      simp only [bogoliubovFinalState]
      rw [show occupiedList 3 (3 : ℕ) = [(1 : Fin 3), 2] from by decide]
      norm_num [fourierTarget1]
    · show bogoliubovFinalState 3 _ [0] ⟨4, by norm_num⟩ = _
      simp only [bogoliubovFinalState]
      rw [show occupiedList 3 (4 : ℕ) = [(0 : Fin 3)] from by decide]
      norm_num [detL_one, fourierTarget1]
    · show bogoliubovFinalState 3 _ [0] ⟨5, by norm_num⟩ = _
      simp only [bogoliubovFinalState]
      rw [show occupiedList 3 (5 : ℕ) = [(0 : Fin 3), 2] from by decide]
      norm_num [fourierTarget1]
    · show bogoliubovFinalState 3 _ [0] ⟨6, by norm_num⟩ = _
      simp only [bogoliubovFinalState]
      rw [show occupiedList 3 (6 : ℕ) = [(0 : Fin 3), 1] from by decide]
      norm_num [fourierTarget1]
    · show bogoliubovFinalState 3 _ [0] ⟨7, by norm_num⟩ = _
      simp only [bogoliubovFinalState]
      rw [show occupiedList 3 (7 : ℕ) = [(0 : Fin 3), 1, 2] from by decide]
      norm_num [fourierTarget1]
  · refine ⟨by decide, _, simulateBog_fourier3 _, omega3, omega3_abs, ?_⟩
    intro k
    fin_cases k
    · show bogoliubovFinalState 3 _ [1, 2] ⟨0, by norm_num⟩ = _
      simp only [bogoliubovFinalState]
      rw [show occupiedList 3 (0 : ℕ) = ([] : List (Fin 3)) from by decide]
      norm_num [fourierTarget2]
    · show bogoliubovFinalState 3 _ [1, 2] ⟨1, by norm_num⟩ = _
      simp only [bogoliubovFinalState]
      rw [show occupiedList 3 (1 : ℕ) = [(2 : Fin 3)] from by decide]
      norm_num [fourierTarget2]
    · show bogoliubovFinalState 3 _ [1, 2] ⟨2, by norm_num⟩ = _
      simp only [bogoliubovFinalState]
      rw [show occupiedList 3 (2 : ℕ) = [(1 : Fin 3)] from by decide]
      norm_num [fourierTarget2]
    · show bogoliubovFinalState 3 _ [1, 2] ⟨3, by norm_num⟩ = _
      simp only [bogoliubovFinalState]
      rw [show occupiedList 3 (3 : ℕ) = [(1 : Fin 3), 2] from by decide]
      rw [if_pos rfl, detL_two]
      simp only [Fin.val_one, Fin.val_two]
      norm_num [fourierTarget2]
      rw [div_mul_div_comm, div_mul_div_comm, sqrt3_mul_self]
      linear_combination ((omega3 ^ 2 - omega3) / 3) * omega3_cube
    · show bogoliubovFinalState 3 _ [1, 2] ⟨4, by norm_num⟩ = _
      simp only [bogoliubovFinalState]
      rw [show occupiedList 3 (4 : ℕ) = [(0 : Fin 3)] from by decide]
      norm_num [fourierTarget2]
    · show bogoliubovFinalState 3 _ [1, 2] ⟨5, by norm_num⟩ = _
      simp only [bogoliubovFinalState]
      rw [show occupiedList 3 (5 : ℕ) = [(0 : Fin 3), 2] from by decide]
      rw [if_pos (show ([(0 : Fin 3), 2] : List (Fin 3)).length
        = ([(1 : Fin 3), 2] : List (Fin 3)).length from rfl), detL_two]
      simp only [Fin.val_zero, Fin.val_one, Fin.val_two]
      norm_num [fourierTarget2]
      rw [inv_eq_one_div, div_mul_div_comm, div_mul_div_comm, sqrt3_mul_self]
      linear_combination (omega3 / 3) * omega3_cube
    · show bogoliubovFinalState 3 _ [1, 2] ⟨6, by norm_num⟩ = _
      simp only [bogoliubovFinalState]
      rw [show occupiedList 3 (6 : ℕ) = [(0 : Fin 3), 1] from by decide]
      rw [if_pos (show ([(0 : Fin 3), 1] : List (Fin 3)).length
        = ([(1 : Fin 3), 2] : List (Fin 3)).length from rfl), detL_two]
      simp only [Fin.val_zero, Fin.val_one, Fin.val_two]
      norm_num [fourierTarget2]
      rw [inv_eq_one_div, div_mul_div_comm, div_mul_div_comm, sqrt3_mul_self]
      ring
    · show bogoliubovFinalState 3 _ [1, 2] ⟨7, by norm_num⟩ = _
      simp only [bogoliubovFinalState]
      rw [show occupiedList 3 (7 : ℕ) = [(0 : Fin 3), 1, 2] from by decide]
      norm_num [fourierTarget2]

/-- Claim C6 as stated is false: with occupied-mode set {2} (initial-state
integer `1 = 1 <<< (3 - 1 - 2)`, not 4), the simulated state is *not* a scalar
multiple of `[0, 1, 1, 0, 1, 0, 0, 0]/√3` — the amplitudes on basis states 1
and 2 are `ω⁴/√3` and `ω²/√3`, whose ratio is not 1. -/
theorem bogoliubov_fourier_occupied_two_counterexample :
    ¬ ∃ f, simulateBog 3 (fourier_transform_matrix 3) [(2 : Fin 3)] = some f
        ∧ ∃ l : ℂ, ∀ k, f k = l * fourierTarget1 k := by
  rintro ⟨f, hf, l, hl⟩
  rw [simulateBog_fourier3] at hf
  have hfe : f = bogoliubovFinalState 3
      (fun i j : Fin 3 => omega3 ^ (i.val * j.val) / ((Real.sqrt 3 : ℝ) : ℂ))
      [2] := (Option.some.inj hf).symm
  subst hfe
  have h1 := hl ⟨1, by norm_num⟩
  have h2 := hl ⟨2, by norm_num⟩
  rw [show bogoliubovFinalState 3
      (fun i j : Fin 3 => omega3 ^ (i.val * j.val) / ((Real.sqrt 3 : ℝ) : ℂ))
      [2] ⟨1, by norm_num⟩
      = omega3 ^ 4 / ((Real.sqrt 3 : ℝ) : ℂ) from by
    simp only [bogoliubovFinalState]
    rw [show occupiedList 3 (1 : ℕ) = [(2 : Fin 3)] from by decide]
    norm_num [detL_one]] at h1
  rw [show bogoliubovFinalState 3
      (fun i j : Fin 3 => omega3 ^ (i.val * j.val) / ((Real.sqrt 3 : ℝ) : ℂ))
      [2] ⟨2, by norm_num⟩
      = omega3 ^ 2 / ((Real.sqrt 3 : ℝ) : ℂ) from by
    simp only [bogoliubovFinalState]
    rw [show occupiedList 3 (2 : ℕ) = [(1 : Fin 3)] from by decide]
    norm_num [detL_one]] at h2
  rw [show fourierTarget1 ⟨1, by norm_num⟩ = 1 / ((Real.sqrt 3 : ℝ) : ℂ) from by
    norm_num [fourierTarget1]] at h1
  rw [show fourierTarget1 ⟨2, by norm_num⟩ = 1 / ((Real.sqrt 3 : ℝ) : ℂ) from by
    norm_num [fourierTarget1]] at h2
  have h1' : omega3 ^ 4 = l := by
    field_simp [sqrt3_ne_zero] at h1
    exact h1
  have h2' : omega3 ^ 2 = l := by
    field_simp [sqrt3_ne_zero] at h2
    exact h2
  have h4 : omega3 ^ 4 = omega3 ^ 2 := by rw [h1', ← h2']
  have h5 : omega3 * 1 = omega3 * omega3 := by
    linear_combination h4 - omega3 * omega3_cube
  have h6 : (1 : ℂ) = omega3 := mul_left_cancel₀ omega3_ne_zero h5
  exact omega3_ne_one h6.symm

end OFC
